import Mathlib

/-!
Verification of the core logic of the golf-pool dashboard server
(`server.py`): name matching, standings/prize computation, career
aggregation, and the entry / edit / archive state transitions.

The Python code is shallowly embedded: every function below is a direct
transcription of the corresponding Python function, with Python strings
modelled as Lean `String` (a packed `List Char`), Python `dict`s (which
preserve insertion order) modelled as association lists, Python's stable
`list.sort` / `sorted` modelled as a stable insertion sort, and Python
integers modelled as `Int`.
-/

namespace GolfPool

/-! ### String primitives

Python's `str.lower`, `str.strip`, `str.split()` and the `in` substring
test, re-implemented structurally over `String.data` so that they reduce
in the kernel.  (`Char.toLower` matches Python `lower` on the ASCII names
that occur in this domain.) -/

/-- Python `s.lower()`. -/
def lowerStr (s : String) : String := String.mk (s.data.map Char.toLower)

/-- Python `s.strip()`: drop whitespace from both ends. -/
def stripStr (s : String) : String :=
  String.mk (((s.data.dropWhile Char.isWhitespace).reverse.dropWhile Char.isWhitespace).reverse)

/-- Normalization applied to a pick before matching: `pick.lower().strip()`. -/
def normPick (s : String) : String := stripStr (lowerStr s)

/-- Auxiliary for `tokensOf`: accumulate the current word (reversed). -/
def wordsAux (cur : List Char) : List Char → List (List Char)
  | [] => if cur.isEmpty then [] else [cur.reverse]
  | c :: cs =>
    if c.isWhitespace then
      (if cur.isEmpty then wordsAux [] cs else cur.reverse :: wordsAux [] cs)
    else wordsAux (c :: cur) cs

/-- Python `s.split()` with no argument: split on whitespace runs, no empty parts. -/
def tokensOf (s : String) : List String := (wordsAux [] s.data).map String.mk

/-- Is `pre` a prefix of the second list? -/
def prefixB : List Char → List Char → Bool
  | [], _ => true
  | _ :: _, [] => false
  | a :: as, b :: bs => a == b && prefixB as bs

/-- Is `needle` a contiguous sublist of the second list? -/
def containsL (needle : List Char) : List Char → Bool
  | [] => needle.isEmpty
  | c :: cs => prefixB needle (c :: cs) || containsL needle cs

/-- Python `sub in hay` on strings. -/
def containsStr (hay sub : String) : Bool := containsL sub.data hay.data

/-! ### Stable insertion sort

Python's `list.sort(key=...)` and `sorted(..., key=...)` are stable.  Any
stable comparison sort is extensionally equal to stable insertion sort,
which we use as the model.  `lt x y` means "x must come strictly before
y"; an element is inserted after every earlier element it is not strictly
below, which is exactly stability. -/

def insertSorted {α : Type} (lt : α → α → Bool) (x : α) : List α → List α
  | [] => [x]
  | y :: ys => if lt x y then x :: y :: ys else y :: insertSorted lt x ys

def stableSort {α : Type} (lt : α → α → Bool) (l : List α) : List α :=
  l.foldl (fun acc x => insertSorted lt x acc) []

theorem length_insertSorted {α : Type} (lt : α → α → Bool) (x : α) (l : List α) :
    (insertSorted lt x l).length = l.length + 1 := by
  induction l with
  | nil => rfl
  | cons y ys ih =>
    simp only [insertSorted]
    by_cases h : lt x y
    · simp [h]
    · simp [h, ih]

theorem perm_insertSorted {α : Type} (lt : α → α → Bool) (x : α) (l : List α) :
    List.Perm (insertSorted lt x l) (x :: l) := by
  induction l with
  | nil => exact List.Perm.refl _
  | cons y ys ih =>
    simp only [insertSorted]
    by_cases h : lt x y
    · simp [h]
    · simp only [h, if_neg, Bool.false_eq_true, ite_false]
      exact (ih.cons y).trans (List.Perm.swap x y ys)

theorem mem_insertSorted {α : Type} (lt : α → α → Bool) (x y : α) (l : List α) :
    y ∈ insertSorted lt x l ↔ y = x ∨ y ∈ l := by
  rw [(perm_insertSorted lt x l).mem_iff]
  simp

theorem pairwise_insertSorted {α : Type} (lt : α → α → Bool)
    (htrans : ∀ a b c, lt a b = true → lt b c = true → lt a c = true)
    (hasymm : ∀ a b, lt a b = true → lt b a = false)
    (x : α) (l : List α) (h : List.Pairwise (fun a b => lt b a = false) l) :
    List.Pairwise (fun a b => lt b a = false) (insertSorted lt x l) := by
  induction l with
  | nil => simp [insertSorted]
  | cons y ys ih =>
    rcases List.pairwise_cons.mp h with ⟨hy, hys⟩
    simp only [insertSorted]
    by_cases hxy : lt x y
    · simp only [hxy, ite_true]
      refine List.pairwise_cons.mpr ⟨?_, h⟩
      intro z hz
      rcases List.mem_cons.mp hz with rfl | hz
      · exact hasymm x z hxy
      · -- z sits after y, so lt z y = false; if lt z x then lt z y, contradiction
        have hzy := hy z hz
        by_cases hzx : lt z x
        · exact absurd (htrans z x y hzx hxy) (by simp [hzy])
        · simpa using hzx
    · simp only [hxy, Bool.false_eq_true, ite_false]
      refine List.pairwise_cons.mpr ⟨?_, ih hys⟩
      intro z hz
      rcases (mem_insertSorted lt x z ys).mp hz with rfl | hz
      · simpa using hxy
      · exact hy z hz

theorem lt_self_eq_false {α : Type} (lt : α → α → Bool)
    (hasymm : ∀ a b, lt a b = true → lt b a = false) (a : α) : lt a a = false := by
  by_cases hc : lt a a
  · have := hasymm a a hc
    simp [hc] at this
  · simpa using hc

theorem filter_insertSorted {α β : Type} [DecidableEq β] (lt : α → α → Bool) (k : α → β)
    (hkey : ∀ a b c, k a = k b → lt a c = lt b c)
    (hasymm : ∀ a b, lt a b = true → lt b a = false)
    (w : β) (x : α) (l : List α) (h : List.Pairwise (fun a b => lt b a = false) l) :
    (insertSorted lt x l).filter (fun y => k y = w) =
      l.filter (fun y => k y = w) ++ (if k x = w then [x] else []) := by
  induction l with
  | nil => by_cases hx : k x = w <;> simp [insertSorted, hx]
  | cons y ys ih =>
    rcases List.pairwise_cons.mp h with ⟨hy, hys⟩
    simp only [insertSorted]
    by_cases hxy : lt x y
    · -- x is placed in front; nothing in y :: ys can share x's key, since it
      -- would then also be strictly before y while sitting at or after y.
      have hkx : ∀ z ∈ y :: ys, k z = w → k x = w → False := by
        intro z hz hzw hxw
        have hzyt : lt z y = true := by
          rw [hkey z x y (by rw [hzw, hxw])]
          exact hxy
        rcases List.mem_cons.mp hz with heq | hz'
        · rw [heq, lt_self_eq_false lt hasymm y] at hzyt
          exact Bool.false_ne_true hzyt
        · rw [hy z hz'] at hzyt
          exact Bool.false_ne_true hzyt
      by_cases hxw : k x = w
      · have hempty : (y :: ys).filter (fun z => decide (k z = w)) = [] := by
          rw [List.filter_eq_nil_iff]
          intro z hz
          simpa using fun hzw => hkx z hz hzw hxw
        simp only [hxy, ite_true, hxw, List.filter_cons]
        simp only [List.filter_cons] at hempty
        simp only [hempty, hxw]
        simp
      · simp only [hxy, ite_true, List.filter_cons, hxw]
        simp
    · simp only [hxy, Bool.false_eq_true, ite_false, List.filter_cons]
      by_cases hyw : k y = w
      · simp only [hyw]
        rw [ih hys]
        simp
      · simp only [hyw]
        rw [ih hys]
        simp

theorem stableSort_aux_perm {α : Type} (lt : α → α → Bool) (l acc : List α) :
    List.Perm (l.foldl (fun acc x => insertSorted lt x acc) acc) (acc ++ l) := by
  induction l generalizing acc with
  | nil => simp
  | cons x xs ih =>
    simp only [List.foldl_cons]
    refine (ih (insertSorted lt x acc)).trans ?_
    have h1 : List.Perm (insertSorted lt x acc) (x :: acc) := perm_insertSorted lt x acc
    refine (h1.append_right xs).trans ?_
    exact (@List.perm_middle _ x acc xs).symm

theorem stableSort_perm {α : Type} (lt : α → α → Bool) (l : List α) :
    List.Perm (stableSort lt l) l := by
  simpa using stableSort_aux_perm lt l []

theorem length_stableSort {α : Type} (lt : α → α → Bool) (l : List α) :
    (stableSort lt l).length = l.length :=
  (stableSort_perm lt l).length_eq

theorem mem_stableSort {α : Type} (lt : α → α → Bool) (x : α) (l : List α) :
    x ∈ stableSort lt l ↔ x ∈ l :=
  (stableSort_perm lt l).mem_iff

theorem pairwise_stableSort {α : Type} (lt : α → α → Bool)
    (htrans : ∀ a b c, lt a b = true → lt b c = true → lt a c = true)
    (hasymm : ∀ a b, lt a b = true → lt b a = false)
    (l : List α) :
    List.Pairwise (fun a b => lt b a = false) (stableSort lt l) := by
  have aux : ∀ (l acc : List α), List.Pairwise (fun a b => lt b a = false) acc →
      List.Pairwise (fun a b => lt b a = false)
        (l.foldl (fun acc x => insertSorted lt x acc) acc) := by
    intro l
    induction l with
    | nil => intro acc h; simpa using h
    | cons x xs ih =>
      intro acc h
      simp only [List.foldl_cons]
      exact ih _ (pairwise_insertSorted lt htrans hasymm x acc h)
  exact aux l [] List.Pairwise.nil

theorem filter_stableSort {α β : Type} [DecidableEq β] (lt : α → α → Bool) (k : α → β)
    (hkey : ∀ a b c, k a = k b → lt a c = lt b c)
    (htrans : ∀ a b c, lt a b = true → lt b c = true → lt a c = true)
    (hasymm : ∀ a b, lt a b = true → lt b a = false)
    (w : β) (l : List α) :
    (stableSort lt l).filter (fun y => k y = w) = l.filter (fun y => k y = w) := by
  have aux : ∀ (l acc : List α), List.Pairwise (fun a b => lt b a = false) acc →
      (l.foldl (fun acc x => insertSorted lt x acc) acc).filter (fun y => k y = w) =
        acc.filter (fun y => k y = w) ++ l.filter (fun y => k y = w) := by
    intro l
    induction l with
    | nil => intro acc h; simp
    | cons x xs ih =>
      intro acc h
      simp only [List.foldl_cons]
      rw [ih _ (pairwise_insertSorted lt htrans hasymm x acc h),
        filter_insertSorted lt k hkey hasymm w x acc h, List.filter_cons]
      by_cases hx : k x = w <;> simp [hx]
  simpa using aux l [] List.Pairwise.nil

/-! ### Lexicographic comparison of `List Int`

Python's `<` on lists of integers: element-by-element, with a strict
prefix comparing smaller. -/

def listLt : List Int → List Int → Bool
  | _, [] => false
  | [], _ :: _ => true
  | a :: as, b :: bs => if a < b then true else if b < a then false else listLt as bs

theorem listLt_trans : ∀ xs ys zs, listLt xs ys = true → listLt ys zs = true →
    listLt xs zs = true := by
  intro xs
  induction xs with
  | nil =>
    intro ys zs h1 h2
    cases ys with
    | nil => simpa [listLt] using h2
    | cons b bs =>
      cases zs with
      | nil => simp [listLt] at h2
      | cons c cs => simp [listLt]
  | cons a as ih =>
    intro ys zs h1 h2
    cases ys with
    | nil => simp [listLt] at h1
    | cons b bs =>
      cases zs with
      | nil => simp [listLt] at h2
      | cons c cs =>
        simp only [listLt] at h1 h2 ⊢
        by_cases hab : a < b
        · by_cases hbc : b < c
          · have : a < c := lt_trans hab hbc
            simp [this]
          · simp only [hbc, ite_false] at h2
            by_cases hcb : c < b
            · simp [hcb] at h2
            · have hbc' : b = c := le_antisymm (not_lt.mp hcb) (not_lt.mp hbc)
              subst hbc'
              simp [hab]
        · simp only [hab, ite_false] at h1
          by_cases hba : b < a
          · simp [hba] at h1
          · have hab' : a = b := le_antisymm (not_lt.mp hba) (not_lt.mp hab)
            subst hab'
            by_cases hac : a < c
            · simp [hac]
            · simp only [hac, ite_false] at h2 ⊢
              by_cases hca : c < a
              · simp [hca] at h2
              · simp only [hca, ite_false] at h2 ⊢
                exact ih bs cs (by simpa [hab] using h1) h2

theorem listLt_asymm : ∀ xs ys, listLt xs ys = true → listLt ys xs = false := by
  intro xs
  induction xs with
  | nil =>
    intro ys h
    cases ys with
    | nil => simp [listLt]
    | cons b bs => simp [listLt]
  | cons a as ih =>
    intro ys h
    cases ys with
    | nil => simp [listLt] at h
    | cons b bs =>
      simp only [listLt] at h ⊢
      by_cases hab : a < b
      · have : ¬ b < a := lt_asymm hab
        simp [this, hab]
      · simp only [hab, ite_false] at h
        by_cases hba : b < a
        · simp [hba] at h
        · have hab' : a = b := le_antisymm (not_lt.mp hba) (not_lt.mp hab)
          subst hab'
          simp only [lt_irrefl, ite_false]
          exact ih bs (by simpa [hab] using h)

/-! ### Data model

Transcribed from the JSON shapes used by `server.py`: leaderboard entries
(`players`), pool participants, standings rows, history records, and
career totals. -/

structure Player where
  name : String
  position : Int
  cut : Bool
deriving DecidableEq, Repr

structure Participant where
  name : String
  picks : List String
deriving DecidableEq, Repr

structure PickRow where
  name : String
  position : Int
  unique : Bool
  cut : Bool
deriving DecidableEq, Repr

structure StandingsRow where
  name : String
  picks : List PickRow
  sort_key : List Int
  place : String
  prize : Int
deriving DecidableEq, Repr

structure ResultRow where
  name : String
  place : String
  prize : Int
deriving DecidableEq, Repr

structure HistoryRecord where
  tournament : String
  dates : String
  year : Int
  results : List ResultRow
deriving DecidableEq, Repr

structure CareerTotal where
  name : String
  tournaments : Nat
  wins : Nat
  seconds : Nat
  winnings : Int
deriving DecidableEq, Repr

structure PoolState where
  entry_fee : Int
  locked : Bool
  participants : List Participant
deriving DecidableEq, Repr

/-! ### Name matcher (`calculate_standings` lines 260-288)

Python `dict`s preserve insertion order; `d[k] = v` overwrites the value
but keeps the key's position, `d.get(k, v)` followed by assignment keeps
an existing binding.  `pos_lookup` and `cut_lookup` always carry exactly
the same keys in the same order (they receive identical insertions), so
they are modelled as a single association list with paired values. -/

abbrev Lookup := List (String × Int × Bool)

/-- `d[key] = v`: overwrite in place, or append a new binding. -/
def dictSet (d : Lookup) (key : String) (v : Int × Bool) : Lookup :=
  if d.any (fun q => q.1 == key) then
    d.map (fun q => if q.1 == key then (key, v) else q)
  else d ++ [(key, v)]

/-- `d[key] = d.get(key, v)`: keep an existing binding, else append. -/
def dictSetD (d : Lookup) (key : String) (v : Int × Bool) : Lookup :=
  if d.any (fun q => q.1 == key) then d else d ++ [(key, v)]

/-- One iteration of the lookup-building loop (lines 263-270): insert the
lowercased full name, then (for multi-word names) the surname token if
not already present. -/
def lookupStep (d : Lookup) (p : Player) : Lookup :=
  let key := lowerStr p.name
  let d1 := dictSet d key (p.position, p.cut)
  let parts := tokensOf key
  if 2 ≤ parts.length then
    match parts.getLast? with
    | some last => dictSetD d1 last (p.position, p.cut)
    | none => d1
  else d1

def buildLookup (players : List Player) : Lookup := players.foldl lookupStep []

/-- The common body of `get_position` and `is_cut` (lines 272-288): exact
key match first, then the first key related to the pick by substring
containment (in dict insertion order), else the sentinel `(999, False)`. -/
def lookupResolve (d : Lookup) (pick : String) : Int × Bool :=
  let nm := normPick pick
  match d.find? (fun q => q.1 == nm) with
  | some q => q.2
  | none =>
    match d.find? (fun q => containsStr q.1 nm || containsStr nm q.1) with
    | some q => q.2
    | none => (999, false)

def get_position (players : List Player) (pick : String) : Int :=
  (lookupResolve (buildLookup players) pick).1

def is_cut (players : List Player) (pick : String) : Bool :=
  (lookupResolve (buildLookup players) pick).2

/-! ### Standings engine (`calculate_standings`, lines 255-334) -/

/-- Sort key for a participant's picks: position, best first (line 310). -/
def pickRowLt (a b : PickRow) : Bool := decide (a.position < b.position)

/-- Sort key for standings rows: lexicographic on `sort_key` (line 318). -/
def rowLt (a b : StandingsRow) : Bool := listLt a.sort_key b.sort_key

/-- Annotate one pick (lines 300-308): resolved position, uniqueness of
the normalized pick text across all picks, and cut flag. -/
def annotPick (d : Lookup) (allPicks : List String) (pick : String) : PickRow :=
  let rc := lookupResolve d pick
  { name := pick
    position := rc.1
    unique := allPicks.countP (fun q => normPick q == normPick pick) == 1
    cut := rc.2 }

/-- Build one participant's standings row (lines 298-315): annotate each
pick, sort the picks by position, and record the sorted position list as
the sort key.  `place`/`prize` are filled in afterwards. -/
def mkRow (d : Lookup) (allPicks : List String) (participant : Participant) : StandingsRow :=
  let sorted := stableSort pickRowLt (participant.picks.map (annotPick d allPicks))
  { name := participant.name, picks := sorted, sort_key := sorted.map (fun q => q.position),
    place := "", prize := 0 }

/-- Prize / place assignment for the row at rank `i` (lines 323-332). -/
def setPlacePrize (n : Nat) (entry_fee total_pot : Int) (i : Nat) (s : StandingsRow) :
    StandingsRow :=
  if i = 0 then
    { s with prize := if 1 < n then total_pot - entry_fee else total_pot, place := "1st" }
  else if i = 1 then
    { s with prize := entry_fee, place := "2nd" }
  else
    { s with prize := 0, place := toString (i + 1) ++ "th" }

/-- `for i, s in enumerate(standings)` (line 323). -/
def annotateRows (n : Nat) (entry_fee total_pot : Int) : Nat → List StandingsRow → List StandingsRow
  | _, [] => []
  | i, s :: rest =>
    setPlacePrize n entry_fee total_pot i s :: annotateRows n entry_fee total_pot (i + 1) rest

/-- All picks of all participants, in order — the iteration domain of the
`pick_counts` loop (lines 291-295). -/
def allPicksOf (participants : List Participant) : List String :=
  (participants.map (fun p => p.picks)).flatten

/-- `calculate_standings(participants, players)` (lines 255-334).  The
entry fee, read from the tournament config file in Python, is passed
explicitly. -/
def calculate_standings (participants : List Participant) (players : List Player)
    (entry_fee : Int) : List StandingsRow :=
  if participants.isEmpty || players.isEmpty then []
  else
    let d := buildLookup players
    let base := participants.map (mkRow d (allPicksOf participants))
    let sorted := stableSort rowLt base
    annotateRows participants.length entry_fee ((participants.length : Int) * entry_fee) 0 sorted

/-! ### Career ledger (`career_standings`, lines 61-73) -/

def bumpTotal (t : CareerTotal) (r : ResultRow) : CareerTotal :=
  { t with
    tournaments := t.tournaments + 1
    winnings := t.winnings + r.prize
    wins := t.wins + (if r.place == "1st" then 1 else 0)
    seconds := t.seconds + (if r.place == "2nd" then 1 else 0) }

/-- Process one result row: update the named participant's running totals,
creating a fresh zero entry first if the name is new (Python dict
insertion order = append at the end). -/
def accRow (acc : List CareerTotal) (r : ResultRow) : List CareerTotal :=
  if acc.any (fun t => t.name == r.name) then
    acc.map (fun t => if t.name == r.name then bumpTotal t r else t)
  else
    acc ++ [bumpTotal { name := r.name, tournaments := 0, wins := 0, seconds := 0, winnings := 0 } r]

/-- `sorted(totals.values(), key=lambda x: -x['winnings'])` is a stable
descending sort on winnings. -/
def careerLt (a b : CareerTotal) : Bool := decide (b.winnings < a.winnings)

/-- All result rows of all history records, in file order. -/
def rowsOf (history : List HistoryRecord) : List ResultRow :=
  (history.map (fun t => t.results)).flatten

def career_standings (history : List HistoryRecord) : List CareerTotal :=
  stableSort careerLt ((rowsOf history).foldl accRow [])

/-! ### Handlers (state transitions, modelled on their success paths;
password checking, HTTP plumbing and file IO are outside the core) -/

/-- `_handle_admin_reset` (lines 1557-1585), after a successful password
check: archive the current standings as one new history record, then
reset the pool state. -/
def admin_reset (cfgName cfgDates : String) (cfgFee : Int) (year : Int)
    (pool : PoolState) (players : List Player) (history : List HistoryRecord) :
    List HistoryRecord × PoolState :=
  let standings := calculate_standings pool.participants players cfgFee
  (history ++ [{ tournament := cfgName, dates := cfgDates, year := year,
                 results := standings.map (fun s =>
                   { name := s.name, place := s.place, prize := s.prize }) }],
   { entry_fee := cfgFee, locked := false, participants := [] })

/-- `_handle_submit_picks` (lines 1322-1354): `none` models the error
paths (empty name, fewer than 6 picks, duplicate name), in which the
participant list is not saved and hence unchanged. -/
def submit_picks (participants : List Participant) (name : String) (picks : List String) :
    Option (List Participant) :=
  if name == "" then none
  else if picks.length < 6 then none
  else if participants.any (fun p => lowerStr p.name == lowerStr name) then none
  else some (participants ++ [{ name := name, picks := picks }])

/-- The update loop of `_handle_edit_picks` (lines 1391-1394): replace the
picks of the first participant whose name matches case-insensitively. -/
def updatePicksFirst (name : String) (picks : List String) :
    List Participant → List Participant
  | [] => []
  | p :: ps =>
    if lowerStr p.name == lowerStr name then { p with picks := picks } :: ps
    else p :: updatePicksFirst name picks ps

/-- `_handle_edit_picks` (lines 1371-1398): `none` models the paths that
do not save (locked, or fewer than 6 picks). -/
def edit_picks (locked : Bool) (participants : List Participant) (name : String)
    (picks : List String) : Option (List Participant) :=
  if locked then none
  else if picks.length < 6 then none
  else some (updatePicksFirst name picks participants)

/-! ### Claim-side name matcher

`resolveSpec` follows the specification's wording for the Name Matcher
(spec §4.1 / claim C4) rather than the source: exact full-name match,
then exact surname match (first leaderboard entry in order), then
substring containment against the entries' normalized *full names* only,
else the sentinel.  It is compared against the source-derived
`get_position`/`is_cut`. -/
def resolveSpec (players : List Player) (pick : String) : Int × Bool :=
  let np := normPick pick
  match players.find? (fun p => lowerStr p.name == np) with
  | some p => (p.position, p.cut)
  | none =>
  match players.find? (fun p => (tokensOf (lowerStr p.name)).getLast? == some np) with
  | some p => (p.position, p.cut)
  | none =>
  match players.find? (fun p =>
      containsStr (lowerStr p.name) np || containsStr np (lowerStr p.name)) with
  | some p => (p.position, p.cut)
  | none => (999, false)

example : get_position [⟨"Tiger Woods", 5, false⟩] "Tiger Woods" = 5 := by decide
example : get_position [⟨"Tiger Woods", 5, false⟩] "woods" = 5 := by decide
example : get_position [⟨"Tiger Woods", 5, false⟩] "iger w" = 5 := by decide
example : get_position [] "Nobody Here" = 999 := by decide
example : get_position [⟨"Tiger Woods", 5, false⟩] "xwoods" = 5 := by decide
example : resolveSpec [⟨"Tiger Woods", 5, false⟩] "xwoods" = (999, false) := by decide

/-! ### Lemmas about place/prize annotation -/

theorem setPlacePrize_name (n : Nat) (fee pot : Int) (i : Nat) (s : StandingsRow) :
    (setPlacePrize n fee pot i s).name = s.name := by
  unfold setPlacePrize
  by_cases h0 : i = 0
  · simp [h0]
  · by_cases h1 : i = 1 <;> simp [h0, h1]

theorem setPlacePrize_picks (n : Nat) (fee pot : Int) (i : Nat) (s : StandingsRow) :
    (setPlacePrize n fee pot i s).picks = s.picks := by
  unfold setPlacePrize
  by_cases h0 : i = 0
  · simp [h0]
  · by_cases h1 : i = 1 <;> simp [h0, h1]

theorem setPlacePrize_sort_key (n : Nat) (fee pot : Int) (i : Nat) (s : StandingsRow) :
    (setPlacePrize n fee pot i s).sort_key = s.sort_key := by
  unfold setPlacePrize
  by_cases h0 : i = 0
  · simp [h0]
  · by_cases h1 : i = 1 <;> simp [h0, h1]

/-- The prize assigned at rank `i`, as a function of the rank alone. -/
def prizeAt (n : Nat) (fee pot : Int) (i : Nat) : Int :=
  if i = 0 then (if 1 < n then pot - fee else pot) else if i = 1 then fee else 0

/-- The place string assigned at rank `i`. -/
def placeAt (i : Nat) : String :=
  if i = 0 then "1st" else if i = 1 then "2nd" else toString (i + 1) ++ "th"

theorem setPlacePrize_prize (n : Nat) (fee pot : Int) (i : Nat) (s : StandingsRow) :
    (setPlacePrize n fee pot i s).prize = prizeAt n fee pot i := by
  unfold setPlacePrize prizeAt
  by_cases h0 : i = 0
  · simp [h0]
  · by_cases h1 : i = 1 <;> simp [h0, h1]

theorem setPlacePrize_place (n : Nat) (fee pot : Int) (i : Nat) (s : StandingsRow) :
    (setPlacePrize n fee pot i s).place = placeAt i := by
  unfold setPlacePrize placeAt
  by_cases h0 : i = 0
  · simp [h0]
  · by_cases h1 : i = 1 <;> simp [h0, h1]

theorem length_annotateRows (n : Nat) (fee pot : Int) :
    ∀ (i : Nat) (l : List StandingsRow), (annotateRows n fee pot i l).length = l.length := by
  intro i l
  induction l generalizing i with
  | nil => rfl
  | cons s rest ih => simp [annotateRows, ih]

theorem get_annotateRows (n : Nat) (fee pot : Int) :
    ∀ (l : List StandingsRow) (i j : Nat) (h : j < l.length),
      (annotateRows n fee pot i l).get
          ⟨j, by rw [length_annotateRows]; exact h⟩ =
        setPlacePrize n fee pot (i + j) (l.get ⟨j, h⟩) := by
  intro l
  induction l with
  | nil => intro i j h; exact absurd h (by simp)
  | cons s rest ih =>
    intro i j h
    cases j with
    | zero => simp [annotateRows]
    | succ j' =>
      have h' : j' < rest.length := by simpa using h
      have := ih (i + 1) j' h'
      simp only [annotateRows, List.get_cons_succ]
      rw [this]
      congr 1
      omega

theorem mem_annotateRows (n : Nat) (fee pot : Int) :
    ∀ (i : Nat) (l : List StandingsRow) (r : StandingsRow),
      r ∈ annotateRows n fee pot i l →
        ∃ i' s, s ∈ l ∧ r = setPlacePrize n fee pot i' s := by
  intro i l
  induction l generalizing i with
  | nil => intro r hr; simp [annotateRows] at hr
  | cons s rest ih =>
    intro r hr
    simp only [annotateRows, List.mem_cons] at hr
    rcases hr with rfl | hr
    · exact ⟨i, s, List.mem_cons_self s rest, rfl⟩
    · rcases ih (i + 1) r hr with ⟨i', s', hs', heq⟩
      exact ⟨i', s', List.mem_cons_of_mem s hs', heq⟩

/-- The tail of the standings (ranks `≥ 2`) receives prize 0. -/
theorem sum_prize_annotateRows_tail (n : Nat) (fee pot : Int) :
    ∀ (l : List StandingsRow) (i : Nat), 2 ≤ i →
      ((annotateRows n fee pot i l).map (fun s => s.prize)).sum = 0 := by
  intro l
  induction l with
  | nil => intro i _; rfl
  | cons s rest ih =>
    intro i hi
    have hp : prizeAt n fee pot i = 0 := by
      unfold prizeAt
      have h0 : ¬ i = 0 := by omega
      have h1 : ¬ i = 1 := by omega
      simp [h0, h1]
    simp only [annotateRows, List.map_cons, List.sum_cons, setPlacePrize_prize, hp,
      ih (i + 1) (by omega)]
    ring

/-- With at least two rows, prizes over the full annotated list sum to the pot. -/
theorem sum_prize_annotateRows (n : Nat) (fee pot : Int) (l : List StandingsRow)
    (hl : 2 ≤ l.length) :
    ((annotateRows n fee pot 0 l).map (fun s => s.prize)).sum =
      prizeAt n fee pot 0 + fee := by
  match l, hl with
  | a :: b :: rest, _ =>
    simp only [annotateRows, List.map_cons, List.sum_cons, setPlacePrize_prize,
      sum_prize_annotateRows_tail n fee pot rest 2 (by omega)]
    unfold prizeAt
    simp

/-- Unfolding `calculate_standings` on non-degenerate input. -/
theorem calculate_standings_eq (participants : List Participant) (players : List Player)
    (fee : Int) (hps : participants ≠ []) (hpl : players ≠ []) :
    calculate_standings participants players fee =
      annotateRows participants.length fee ((participants.length : Int) * fee) 0
        (stableSort rowLt
          (participants.map (mkRow (buildLookup players) (allPicksOf participants)))) := by
  unfold calculate_standings
  simp [hps, hpl]

theorem length_calculate_standings (participants : List Participant) (players : List Player)
    (fee : Int) (hps : participants ≠ []) (hpl : players ≠ []) :
    (calculate_standings participants players fee).length = participants.length := by
  rw [calculate_standings_eq participants players fee hps hpl, length_annotateRows,
    length_stableSort, List.length_map]

/-- **C8.** Degenerate inputs: if the participant list or the leaderboard
is empty, `calculate_standings` returns the empty list. -/
theorem claim_C8_degenerate (participants : List Participant) (players : List Player)
    (fee : Int) (h : participants = [] ∨ players = []) :
    calculate_standings participants players fee = [] := by
  unfold calculate_standings
  rcases h with rfl | rfl <;> simp

theorem claim_C8_witness :
    (([] : List Participant) = [] ∨ ([⟨"Tiger Woods", 5, false⟩] : List Player) = []) ∧
      calculate_standings [] [⟨"Tiger Woods", 5, false⟩] 25 = [] :=
  ⟨Or.inl rfl, claim_C8_degenerate [] [⟨"Tiger Woods", 5, false⟩] 25 (Or.inl rfl)⟩

theorem get?_annotateRows (n : Nat) (fee pot : Int) :
    ∀ (l : List StandingsRow) (i j : Nat),
      (annotateRows n fee pot i l).get? j =
        (l.get? j).map (setPlacePrize n fee pot (i + j)) := by
  intro l
  induction l with
  | nil => intro i j; cases j <;> rfl
  | cons s rest ih =>
    intro i j
    cases j with
    | zero => simp [annotateRows]
    | succ j' =>
      simp only [annotateRows, List.get?_cons_succ, ih (i + 1) j']
      have harith : i + 1 + j' = i + (j' + 1) := by omega
      rw [harith]

/-- **C1.** Prize conservation: with a non-empty leaderboard, the prizes
in the standings sum to `participants × fee` whenever there are at least
two participants, and a sole participant's prize is the full fee. -/
theorem claim_C1_prize_conservation (participants : List Participant) (players : List Player)
    (fee : Int) (hpl : players ≠ []) :
    (2 ≤ participants.length →
      ((calculate_standings participants players fee).map (fun s => s.prize)).sum =
        (participants.length : Int) * fee) ∧
    (participants.length = 1 →
      ∀ r ∈ calculate_standings participants players fee, r.prize = fee) := by
  constructor
  · intro hn
    have hps : participants ≠ [] := by
      intro h; rw [h] at hn; simp at hn
    rw [calculate_standings_eq participants players fee hps hpl]
    have hlen : 2 ≤ (stableSort rowLt
        (participants.map (mkRow (buildLookup players) (allPicksOf participants)))).length := by
      rw [length_stableSort, List.length_map]; exact hn
    rw [sum_prize_annotateRows _ _ _ _ hlen]
    unfold prizeAt
    have h1 : 1 < participants.length := by omega
    simp only [h1, ite_true]
    ring
  · intro hn r hr
    have hps : participants ≠ [] := by
      intro h; rw [h] at hn; simp at hn
    have hlen1 : (calculate_standings participants players fee).length = 1 := by
      rw [length_calculate_standings participants players fee hps hpl, hn]
    rcases List.length_eq_one.mp hlen1 with ⟨a, ha⟩
    rw [ha] at hr
    simp only [List.mem_singleton] at hr
    subst hr
    have hget : (calculate_standings participants players fee).get? 0 = some r := by
      rw [ha]; rfl
    rw [calculate_standings_eq participants players fee hps hpl, get?_annotateRows] at hget
    rcases Option.map_eq_some'.mp hget with ⟨s, _, heqr⟩
    rw [← heqr, setPlacePrize_prize]
    unfold prizeAt
    rw [hn]
    simp

/-- **C6.** Place and prize by rank: row `i` of the standings gets place
"1st"/"2nd"/"{i+1}th" and prize pot−fee / fee / 0 (the sole participant
case receiving the full pot). -/
theorem claim_C6_place_prize (participants : List Participant) (players : List Player)
    (fee : Int) (hps : participants ≠ []) (hpl : players ≠ [])
    (i : Nat) (r : StandingsRow)
    (hr : (calculate_standings participants players fee).get? i = some r) :
    r.place = (if i = 0 then "1st" else if i = 1 then "2nd" else toString (i + 1) ++ "th") ∧
    r.prize = (if i = 0 then
        (if participants.length = 1 then (participants.length : Int) * fee
         else (participants.length : Int) * fee - fee)
      else if i = 1 then fee else 0) := by
  rw [calculate_standings_eq participants players fee hps hpl,
    get?_annotateRows] at hr
  rcases Option.map_eq_some'.mp hr with ⟨s, hs, rfl⟩
  have hn1 : 1 ≤ participants.length := by
    rcases participants with _ | ⟨p, ps⟩
    · exact absurd rfl hps
    · simp
  rw [setPlacePrize_place, setPlacePrize_prize]
  unfold placeAt prizeAt
  simp only [Nat.zero_add]
  constructor
  · trivial
  · by_cases h0 : i = 0
    · subst h0
      by_cases hone : participants.length = 1
      · simp [hone]
      · have : 1 < participants.length := by omega
        simp [hone, this]
    · simp [h0]

theorem claim_C1_witness :
    ([⟨"Tiger Woods", 5, false⟩] : List Player) ≠ [] ∧
      (2 ≤ ([⟨"A", ["Tiger Woods"]⟩, ⟨"B", ["Nobody"]⟩] : List Participant).length →
        ((calculate_standings [⟨"A", ["Tiger Woods"]⟩, ⟨"B", ["Nobody"]⟩]
            [⟨"Tiger Woods", 5, false⟩] 25).map (fun s => s.prize)).sum =
          (([⟨"A", ["Tiger Woods"]⟩, ⟨"B", ["Nobody"]⟩] : List Participant).length : Int) * 25) ∧
      (([⟨"A", ["Tiger Woods"]⟩, ⟨"B", ["Nobody"]⟩] : List Participant).length = 1 →
        ∀ r ∈ calculate_standings [⟨"A", ["Tiger Woods"]⟩, ⟨"B", ["Nobody"]⟩]
            [⟨"Tiger Woods", 5, false⟩] 25, r.prize = 25) :=
  ⟨by decide,
   (claim_C1_prize_conservation [⟨"A", ["Tiger Woods"]⟩, ⟨"B", ["Nobody"]⟩]
     [⟨"Tiger Woods", 5, false⟩] 25 (by decide)).1,
   (claim_C1_prize_conservation [⟨"A", ["Tiger Woods"]⟩, ⟨"B", ["Nobody"]⟩]
     [⟨"Tiger Woods", 5, false⟩] 25 (by decide)).2⟩

theorem claim_C6_witness :
    (([⟨"A", ["p"]⟩, ⟨"B", ["q"]⟩] : List Participant) ≠ []) ∧
    (([⟨"p", 1, false⟩, ⟨"q", 2, false⟩] : List Player) ≠ []) ∧
    (calculate_standings [⟨"A", ["p"]⟩, ⟨"B", ["q"]⟩]
        [⟨"p", 1, false⟩, ⟨"q", 2, false⟩] 25).get? 1 =
      some ⟨"B", [⟨"q", 2, true, false⟩], [2], "2nd", 25⟩ ∧
    (⟨"B", [⟨"q", 2, true, false⟩], [2], "2nd", 25⟩ : StandingsRow).place =
      (if 1 = 0 then "1st" else if 1 = 1 then "2nd" else toString (1 + 1) ++ "th") ∧
    (⟨"B", [⟨"q", 2, true, false⟩], [2], "2nd", 25⟩ : StandingsRow).prize =
      (if 1 = 0 then
        (if ([⟨"A", ["p"]⟩, ⟨"B", ["q"]⟩] : List Participant).length = 1 then
          (([⟨"A", ["p"]⟩, ⟨"B", ["q"]⟩] : List Participant).length : Int) * 25
         else (([⟨"A", ["p"]⟩, ⟨"B", ["q"]⟩] : List Participant).length : Int) * 25 - 25)
       else if 1 = 1 then 25 else 0) :=
  ⟨by decide, by decide, by decide,
   (claim_C6_place_prize [⟨"A", ["p"]⟩, ⟨"B", ["q"]⟩] [⟨"p", 1, false⟩, ⟨"q", 2, false⟩] 25
     (by decide) (by decide) 1 ⟨"B", [⟨"q", 2, true, false⟩], [2], "2nd", 25⟩ (by decide)).1,
   (claim_C6_place_prize [⟨"A", ["p"]⟩, ⟨"B", ["q"]⟩] [⟨"p", 1, false⟩, ⟨"q", 2, false⟩] 25
     (by decide) (by decide) 1 ⟨"B", [⟨"q", 2, true, false⟩], [2], "2nd", 25⟩ (by decide)).2⟩

/-! ### Shape lemmas for `mkRow` and `annotateRows` -/

theorem mkRow_name (d : Lookup) (allPicks : List String) (p : Participant) :
    (mkRow d allPicks p).name = p.name := rfl

theorem mkRow_picks (d : Lookup) (allPicks : List String) (p : Participant) :
    (mkRow d allPicks p).picks = stableSort pickRowLt (p.picks.map (annotPick d allPicks)) := rfl

theorem mkRow_sort_key (d : Lookup) (allPicks : List String) (p : Participant) :
    (mkRow d allPicks p).sort_key =
      (stableSort pickRowLt (p.picks.map (annotPick d allPicks))).map (fun q => q.position) := rfl

theorem map_annotateRows {γ : Type} (n : Nat) (fee pot : Int) (f : StandingsRow → γ)
    (hf : ∀ j s, f (setPlacePrize n fee pot j s) = f s) :
    ∀ (i : Nat) (l : List StandingsRow), (annotateRows n fee pot i l).map f = l.map f := by
  intro i l
  induction l generalizing i with
  | nil => rfl
  | cons s rest ih => simp [annotateRows, hf, ih]

theorem pairwise_annotateRows (n : Nat) (fee pot : Int)
    (R : StandingsRow → StandingsRow → Prop)
    (hR : ∀ i j s t, R s t → R (setPlacePrize n fee pot i s) (setPlacePrize n fee pot j t)) :
    ∀ (i : Nat) (l : List StandingsRow),
      List.Pairwise R l → List.Pairwise R (annotateRows n fee pot i l) := by
  intro i l
  induction l generalizing i with
  | nil => intro _; simp [annotateRows]
  | cons s rest ih =>
    intro h
    rcases List.pairwise_cons.mp h with ⟨hhead, htail⟩
    refine List.pairwise_cons.mpr ⟨?_, ih (i + 1) htail⟩
    intro b hb
    rcases mem_annotateRows n fee pot (i + 1) rest b hb with ⟨j, t, ht, rfl⟩
    exact hR i j s t (hhead t ht)

/-- **C10.** Standings shape: one row per participant, names (with pick
counts) a permutation of the participants', each row's annotated picks as
long as that participant's pick list. -/
theorem claim_C10_shape (participants : List Participant) (players : List Player) (fee : Int)
    (hps : participants ≠ []) (hpl : players ≠ []) :
    (calculate_standings participants players fee).length = participants.length ∧
    List.Perm
      ((calculate_standings participants players fee).map (fun r => (r.name, r.picks.length)))
      (participants.map (fun p => (p.name, p.picks.length))) := by
  refine ⟨length_calculate_standings participants players fee hps hpl, ?_⟩
  rw [calculate_standings_eq participants players fee hps hpl]
  rw [map_annotateRows _ _ _ _ (fun j s => by rw [setPlacePrize_name, setPlacePrize_picks])]
  refine ((stableSort_perm rowLt _).map _).trans ?_
  rw [List.map_map]
  have : ((fun r : StandingsRow => (r.name, r.picks.length)) ∘
      mkRow (buildLookup players) (allPicksOf participants)) =
      (fun p : Participant => (p.name, p.picks.length)) := by
    funext p
    simp only [Function.comp_apply, mkRow_name, mkRow_picks, length_stableSort,
      List.length_map]
  rw [this]

theorem claim_C10_witness :
    (([⟨"A", ["p"]⟩, ⟨"B", ["q"]⟩] : List Participant) ≠ []) ∧
    (([⟨"p", 1, false⟩, ⟨"q", 2, false⟩] : List Player) ≠ []) ∧
    (calculate_standings [⟨"A", ["p"]⟩, ⟨"B", ["q"]⟩]
        [⟨"p", 1, false⟩, ⟨"q", 2, false⟩] 25).length =
      ([⟨"A", ["p"]⟩, ⟨"B", ["q"]⟩] : List Participant).length ∧
    List.Perm
      ((calculate_standings [⟨"A", ["p"]⟩, ⟨"B", ["q"]⟩]
          [⟨"p", 1, false⟩, ⟨"q", 2, false⟩] 25).map (fun r => (r.name, r.picks.length)))
      (([⟨"A", ["p"]⟩, ⟨"B", ["q"]⟩] : List Participant).map (fun p => (p.name, p.picks.length))) :=
  ⟨by decide, by decide,
   (claim_C10_shape [⟨"A", ["p"]⟩, ⟨"B", ["q"]⟩] [⟨"p", 1, false⟩, ⟨"q", 2, false⟩] 25
     (by decide) (by decide)).1,
   (claim_C10_shape [⟨"A", ["p"]⟩, ⟨"B", ["q"]⟩] [⟨"p", 1, false⟩, ⟨"q", 2, false⟩] 25
     (by decide) (by decide)).2⟩

/-- **C5.** Uniqueness flag: a pick row's `unique` flag is true exactly
when its normalized text occurs exactly once among all participants'
picks combined. -/
theorem claim_C5_unique_flag (participants : List Participant) (players : List Player)
    (fee : Int) (r : StandingsRow)
    (hr : r ∈ calculate_standings participants players fee)
    (q : PickRow) (hq : q ∈ r.picks) :
    q.unique = true ↔
      (allPicksOf participants).countP (fun s => decide (normPick s = normPick q.name)) = 1 := by
  have hps : participants ≠ [] := by
    intro h
    rw [h] at hr
    simp [calculate_standings] at hr
  have hpl : players ≠ [] := by
    intro h
    rw [h] at hr
    simp [calculate_standings] at hr
  rw [calculate_standings_eq participants players fee hps hpl] at hr
  rcases mem_annotateRows _ _ _ 0 _ r hr with ⟨i, s, hs, rfl⟩
  rw [setPlacePrize_picks] at hq
  rw [mem_stableSort rowLt] at hs
  rcases List.mem_map.mp hs with ⟨p, _, rfl⟩
  rw [mkRow_picks, mem_stableSort pickRowLt] at hq
  rcases List.mem_map.mp hq with ⟨pick, _, rfl⟩
  have hcong : (allPicksOf participants).countP
      (fun t => normPick t == normPick pick) =
      (allPicksOf participants).countP
        (fun t => decide (normPick t = normPick pick)) := by
    apply List.countP_congr
    intro t _
    simp
  simp only [annotPick]
  rw [hcong]
  simp

theorem claim_C5_witness :
    ((⟨"A", [⟨"p", 1, true, false⟩], [1], "1st", 25⟩ : StandingsRow) ∈
      calculate_standings [⟨"A", ["p"]⟩, ⟨"B", ["q"]⟩]
        [⟨"p", 1, false⟩, ⟨"q", 2, false⟩] 25) ∧
    ((⟨"p", 1, true, false⟩ : PickRow) ∈
      (⟨"A", [⟨"p", 1, true, false⟩], [1], "1st", 25⟩ : StandingsRow).picks) ∧
    ((⟨"p", 1, true, false⟩ : PickRow).unique = true ↔
      (allPicksOf [⟨"A", ["p"]⟩, ⟨"B", ["q"]⟩]).countP
        (fun s => decide (normPick s = normPick (⟨"p", 1, true, false⟩ : PickRow).name)) = 1) :=
  ⟨by decide, by decide,
   claim_C5_unique_flag [⟨"A", ["p"]⟩, ⟨"B", ["q"]⟩] [⟨"p", 1, false⟩, ⟨"q", 2, false⟩] 25
     ⟨"A", [⟨"p", 1, true, false⟩], [1], "1st", 25⟩ (by decide)
     ⟨"p", 1, true, false⟩ (by decide)⟩

/-! ### Order properties of the two sort comparisons -/

theorem pickRowLt_trans (a b c : PickRow) :
    pickRowLt a b = true → pickRowLt b c = true → pickRowLt a c = true := by
  simp only [pickRowLt, decide_eq_true_eq]
  omega

theorem pickRowLt_asymm (a b : PickRow) : pickRowLt a b = true → pickRowLt b a = false := by
  simp only [pickRowLt, decide_eq_true_eq, decide_eq_false_iff_not]
  omega

theorem rowLt_trans (a b c : StandingsRow) :
    rowLt a b = true → rowLt b c = true → rowLt a c = true :=
  listLt_trans a.sort_key b.sort_key c.sort_key

theorem rowLt_asymm (a b : StandingsRow) : rowLt a b = true → rowLt b a = false :=
  listLt_asymm a.sort_key b.sort_key

/-- **C3.** Ranking order: each row's sort key is the ascending-sorted
list of the resolved positions of all of that participant's picks
(unfiltered by uniqueness), the standings are ordered by ascending
lexicographic comparison of sort keys (no later row's key is
lexicographically below an earlier one's), and in particular the sort key
`[1,10,20,30,40,50]` ranks above `[2,3,4,5,6,7]`. -/
theorem claim_C3_ranking (participants : List Participant) (players : List Player) (fee : Int)
    (hps : participants ≠ []) (hpl : players ≠ []) :
    (∀ r ∈ calculate_standings participants players fee,
      r.sort_key = r.picks.map (fun q => q.position) ∧
      List.Pairwise (fun a b : Int => a ≤ b) r.sort_key ∧
      ∃ p ∈ participants, r.name = p.name ∧
        List.Perm r.sort_key (p.picks.map (fun pk => get_position players pk))) ∧
    List.Pairwise (fun a b => listLt b.sort_key a.sort_key = false)
      (calculate_standings participants players fee) ∧
    (calculate_standings
        [⟨"X", ["g01", "g02", "g03", "g04", "g05", "g06"]⟩,
         ⟨"Y", ["g07", "g08", "g09", "g10", "g11", "g12"]⟩]
        [⟨"g01", 1, false⟩, ⟨"g02", 10, false⟩, ⟨"g03", 20, false⟩, ⟨"g04", 30, false⟩,
         ⟨"g05", 40, false⟩, ⟨"g06", 50, false⟩, ⟨"g07", 2, false⟩, ⟨"g08", 3, false⟩,
         ⟨"g09", 4, false⟩, ⟨"g10", 5, false⟩, ⟨"g11", 6, false⟩,
         ⟨"g12", 7, false⟩] 25).map (fun r => (r.name, r.sort_key)) =
      [("X", [1, 10, 20, 30, 40, 50]), ("Y", [2, 3, 4, 5, 6, 7])] := by
  refine ⟨?_, ?_, by decide⟩
  · intro r hr
    rw [calculate_standings_eq participants players fee hps hpl] at hr
    rcases mem_annotateRows _ _ _ 0 _ r hr with ⟨i, s, hs, rfl⟩
    rw [mem_stableSort rowLt] at hs
    rcases List.mem_map.mp hs with ⟨p, hp, rfl⟩
    refine ⟨?_, ?_, p, hp, ?_, ?_⟩
    · rw [setPlacePrize_sort_key, setPlacePrize_picks, mkRow_sort_key, mkRow_picks]
    · rw [setPlacePrize_sort_key, mkRow_sort_key]
      rw [List.pairwise_map]
      have hpw := pairwise_stableSort pickRowLt pickRowLt_trans pickRowLt_asymm
        (p.picks.map (annotPick (buildLookup players) (allPicksOf participants)))
      refine hpw.imp ?_
      intro a b hab
      simpa [pickRowLt, not_lt] using hab
    · rw [setPlacePrize_name, mkRow_name]
    · rw [setPlacePrize_sort_key, mkRow_sort_key]
      have hperm := (stableSort_perm pickRowLt
        (p.picks.map (annotPick (buildLookup players) (allPicksOf participants)))).map
        (fun q : PickRow => q.position)
      refine hperm.trans ?_
      rw [List.map_map]
      exact List.Perm.refl _
  · rw [calculate_standings_eq participants players fee hps hpl]
    refine pairwise_annotateRows _ _ _ _ ?_ 0 _ ?_
    · intro i j s t hst
      rw [setPlacePrize_sort_key, setPlacePrize_sort_key]
      exact hst
    · have := pairwise_stableSort rowLt rowLt_trans rowLt_asymm
        (participants.map (mkRow (buildLookup players) (allPicksOf participants)))
      exact this.imp (fun h => h)

theorem claim_C3_witness :
    (([⟨"A", ["p"]⟩, ⟨"B", ["q"]⟩] : List Participant) ≠ []) ∧
    (([⟨"p", 1, false⟩, ⟨"q", 2, false⟩] : List Player) ≠ []) ∧
    (∀ r ∈ calculate_standings [⟨"A", ["p"]⟩, ⟨"B", ["q"]⟩]
        [⟨"p", 1, false⟩, ⟨"q", 2, false⟩] 25,
      r.sort_key = r.picks.map (fun q => q.position) ∧
      List.Pairwise (fun a b : Int => a ≤ b) r.sort_key ∧
      ∃ p ∈ ([⟨"A", ["p"]⟩, ⟨"B", ["q"]⟩] : List Participant), r.name = p.name ∧
        List.Perm r.sort_key (p.picks.map (fun pk =>
          get_position [⟨"p", 1, false⟩, ⟨"q", 2, false⟩] pk))) ∧
    List.Pairwise (fun a b => listLt b.sort_key a.sort_key = false)
      (calculate_standings [⟨"A", ["p"]⟩, ⟨"B", ["q"]⟩]
        [⟨"p", 1, false⟩, ⟨"q", 2, false⟩] 25) :=
  ⟨by decide, by decide,
   (claim_C3_ranking [⟨"A", ["p"]⟩, ⟨"B", ["q"]⟩] [⟨"p", 1, false⟩, ⟨"q", 2, false⟩] 25
     (by decide) (by decide)).1,
   (claim_C3_ranking [⟨"A", ["p"]⟩, ⟨"B", ["q"]⟩] [⟨"p", 1, false⟩, ⟨"q", 2, false⟩] 25
     (by decide) (by decide)).2.1⟩

/-! ### Entry creation / edit -/

theorem updatePicksFirst_names (name : String) (picks : List String) :
    ∀ participants : List Participant,
      (updatePicksFirst name picks participants).map (fun p => p.name) =
        participants.map (fun p => p.name) := by
  intro participants
  induction participants with
  | nil => rfl
  | cons p ps ih =>
    simp only [updatePicksFirst]
    by_cases h : lowerStr p.name == lowerStr name
    · simp [h]
    · simp only [h, Bool.false_eq_true, ite_false, List.map_cons, ih]

/-- **C9.** Duplicate names are rejected case-insensitively at creation
(list unchanged), otherwise the participant is appended; the edit
operation performs no such check: it always saves, and never changes any
name. -/
theorem claim_C9_duplicate_name (participants : List Participant) (name : String)
    (picks : List String) (hname : name ≠ "") (hpicks : picks.length = 6) :
    ((∃ p ∈ participants, lowerStr p.name = lowerStr name) →
      submit_picks participants name picks = none) ∧
    ((¬ ∃ p ∈ participants, lowerStr p.name = lowerStr name) →
      submit_picks participants name picks = some (participants ++ [⟨name, picks⟩])) ∧
    (∃ l, edit_picks false participants name picks = some l ∧
      l.map (fun p => p.name) = participants.map (fun p => p.name)) := by
  have hname' : (name == "") = false := by
    simp [hname]
  have hlen : ¬ picks.length < 6 := by omega
  refine ⟨?_, ?_, ?_⟩
  · intro hdup
    have hany : participants.any (fun p => lowerStr p.name == lowerStr name) = true := by
      rw [List.any_eq_true]
      rcases hdup with ⟨p, hp, he⟩
      exact ⟨p, hp, by simp [he]⟩
    simp [submit_picks, hname', hlen, hany]
  · intro hdup
    have hany : participants.any (fun p => lowerStr p.name == lowerStr name) = false := by
      rw [Bool.eq_false_iff]
      intro hc
      rw [List.any_eq_true] at hc
      rcases hc with ⟨p, hp, he⟩
      exact hdup ⟨p, hp, by simpa using he⟩
    simp [submit_picks, hname', hlen, hany]
  · exact ⟨updatePicksFirst name picks participants,
      by simp [edit_picks, hlen], updatePicksFirst_names name picks participants⟩

theorem claim_C9_witness :
    ("alice" ≠ "") ∧ (["a", "b", "c", "d", "e", "f"] : List String).length = 6 ∧
    ((∃ p ∈ ([⟨"Alice", ["x", "x", "x", "x", "x", "x"]⟩] : List Participant),
        lowerStr p.name = lowerStr "alice") →
      submit_picks [⟨"Alice", ["x", "x", "x", "x", "x", "x"]⟩] "alice"
        ["a", "b", "c", "d", "e", "f"] = none) ∧
    (∃ l, edit_picks false [⟨"Alice", ["x", "x", "x", "x", "x", "x"]⟩] "alice"
        ["a", "b", "c", "d", "e", "f"] = some l ∧
      l.map (fun p => p.name) =
        ([⟨"Alice", ["x", "x", "x", "x", "x", "x"]⟩] : List Participant).map
          (fun p => p.name)) :=
  ⟨by decide, by decide,
   (claim_C9_duplicate_name [⟨"Alice", ["x", "x", "x", "x", "x", "x"]⟩] "alice"
     ["a", "b", "c", "d", "e", "f"] (by decide) (by decide)).1,
   (claim_C9_duplicate_name [⟨"Alice", ["x", "x", "x", "x", "x", "x"]⟩] "alice"
     ["a", "b", "c", "d", "e", "f"] (by decide) (by decide)).2.2⟩

/-! ### Archive / reset -/

/-- **C2 (counterexample).** With one participant but an *empty*
leaderboard, `calculate_standings` is empty, so the archived record's
`results` has length 0, not the pre-archive participant count 1.  The
claim quantifies over *every* leaderboard, so it fails here. -/
theorem claim_C2_counterexample :
    (⟨25, true, [⟨"A", ["p"]⟩]⟩ : PoolState).participants.length = 1 ∧
    (admin_reset "T" "D" 25 2025 ⟨25, true, [⟨"A", ["p"]⟩]⟩ [] []).1 =
      [⟨"T", "D", 2025, []⟩] ∧
    (⟨"T", "D", 2025, []⟩ : HistoryRecord).results.length ≠
      (⟨25, true, [⟨"A", ["p"]⟩]⟩ : PoolState).participants.length := by
  refine ⟨rfl, by decide, by decide⟩

/-- **C2 (amended).** The archive/reset action appends exactly one
history record whose results are the computed standings' name/place/prize
triples verbatim; afterwards the pool has no participants and is
unlocked.  The record's `results` length equals the pre-archive
participant count *provided the participant list and the leaderboard are
both non-empty* (otherwise the standings, and hence `results`, are
empty). -/
theorem claim_C2_archive (cfgName cfgDates : String) (cfgFee : Int) (year : Int)
    (pool : PoolState) (players : List Player) (history : List HistoryRecord) :
    (admin_reset cfgName cfgDates cfgFee year pool players history).1 =
      history ++ [⟨cfgName, cfgDates, year,
        (calculate_standings pool.participants players cfgFee).map
          (fun s => ⟨s.name, s.place, s.prize⟩)⟩] ∧
    (admin_reset cfgName cfgDates cfgFee year pool players history).1.length =
      history.length + 1 ∧
    (admin_reset cfgName cfgDates cfgFee year pool players history).2.participants = [] ∧
    (admin_reset cfgName cfgDates cfgFee year pool players history).2.locked = false ∧
    (pool.participants ≠ [] → players ≠ [] →
      ((calculate_standings pool.participants players cfgFee).map
        (fun s => (⟨s.name, s.place, s.prize⟩ : ResultRow))).length =
        pool.participants.length) := by
  refine ⟨rfl, by simp [admin_reset], rfl, rfl, ?_⟩
  intro hps hpl
  rw [List.length_map]
  exact length_calculate_standings pool.participants players cfgFee hps hpl

theorem claim_C2_witness :
    ((⟨25, false, [⟨"A", ["p"]⟩, ⟨"B", ["q"]⟩]⟩ : PoolState).participants ≠ []) ∧
    (([⟨"p", 1, false⟩, ⟨"q", 2, false⟩] : List Player) ≠ []) ∧
    (admin_reset "T" "D" 25 2025 ⟨25, false, [⟨"A", ["p"]⟩, ⟨"B", ["q"]⟩]⟩
        [⟨"p", 1, false⟩, ⟨"q", 2, false⟩] []).2.participants = [] ∧
    ((calculate_standings
        (⟨25, false, [⟨"A", ["p"]⟩, ⟨"B", ["q"]⟩]⟩ : PoolState).participants
        [⟨"p", 1, false⟩, ⟨"q", 2, false⟩] 25).map
      (fun s => (⟨s.name, s.place, s.prize⟩ : ResultRow))).length =
      (⟨25, false, [⟨"A", ["p"]⟩, ⟨"B", ["q"]⟩]⟩ : PoolState).participants.length :=
  ⟨by decide, by decide,
   (claim_C2_archive "T" "D" 25 2025 ⟨25, false, [⟨"A", ["p"]⟩, ⟨"B", ["q"]⟩]⟩
     [⟨"p", 1, false⟩, ⟨"q", 2, false⟩] []).2.2.1,
   (claim_C2_archive "T" "D" 25 2025 ⟨25, false, [⟨"A", ["p"]⟩, ⟨"B", ["q"]⟩]⟩
     [⟨"p", 1, false⟩, ⟨"q", 2, false⟩] []).2.2.2.2 (by decide) (by decide)⟩

/-! ### Claim-side description of the career aggregation

`namesInOrder` and `totalFor` restate claim C7's wording: the distinct
participant names in order of first appearance in the history's result
rows, and the per-name totals computed by counting/summing rows directly.
They are compared against the source-derived fold `accRow`. -/

def addName (acc : List String) (n : String) : List String :=
  if n ∈ acc then acc else acc ++ [n]

def namesInOrder (rs : List ResultRow) : List String :=
  rs.foldl (fun acc r => addName acc r.name) []

def totalFor (rs : List ResultRow) (n : String) : CareerTotal :=
  { name := n
    tournaments := rs.countP (fun r => r.name == n)
    wins := rs.countP (fun r => r.name == n && r.place == "1st")
    seconds := rs.countP (fun r => r.name == n && r.place == "2nd")
    winnings := ((rs.filter (fun r => r.name == n)).map (fun r => r.prize)).sum }

theorem totalFor_name (rs : List ResultRow) (n : String) : (totalFor rs n).name = n := rfl

theorem mem_addName (acc : List String) (m n : String) :
    n ∈ addName acc m ↔ n ∈ acc ∨ n = m := by
  unfold addName
  by_cases h : m ∈ acc
  · simp only [h, ite_true]
    constructor
    · exact Or.inl
    · rintro (hn | rfl)
      · exact hn
      · exact h
  · simp [h]

theorem mem_namesInOrder (rs : List ResultRow) (n : String) :
    n ∈ namesInOrder rs ↔ ∃ r ∈ rs, r.name = n := by
  have aux : ∀ (rs : List ResultRow) (acc : List String),
      n ∈ rs.foldl (fun acc r => addName acc r.name) acc ↔
        n ∈ acc ∨ ∃ r ∈ rs, r.name = n := by
    intro rs
    induction rs with
    | nil => intro acc; simp
    | cons r rest ih =>
      intro acc
      simp only [List.foldl_cons, ih, mem_addName]
      constructor
      · rintro ((hn | rfl) | hr)
        · exact Or.inl hn
        · exact Or.inr ⟨r, List.mem_cons_self r rest, rfl⟩
        · rcases hr with ⟨r', hr', he⟩
          exact Or.inr ⟨r', List.mem_cons_of_mem r hr', he⟩
      · rintro (hn | ⟨r', hr', he⟩)
        · exact Or.inl (Or.inl hn)
        · rcases List.mem_cons.mp hr' with rfl | hr''
          · exact Or.inl (Or.inr he.symm)
          · exact Or.inr ⟨r', hr'', he⟩
  unfold namesInOrder
  rw [aux rs []]
  simp

theorem namesInOrder_concat (rs : List ResultRow) (r : ResultRow) :
    namesInOrder (rs ++ [r]) = addName (namesInOrder rs) r.name := by
  unfold namesInOrder
  rw [List.foldl_append]
  rfl

theorem totalFor_concat (rs : List ResultRow) (r : ResultRow) (n : String) :
    totalFor (rs ++ [r]) n =
      if r.name = n then bumpTotal (totalFor rs n) r else totalFor rs n := by
  unfold totalFor bumpTotal
  by_cases hn : r.name = n
  · simp only [hn, ite_true]
    simp only [List.countP_append, List.filter_append, List.map_append, List.sum_append,
      CareerTotal.mk.injEq, true_and]
    refine ⟨?_, ?_, ?_, ?_⟩
    · simp [List.countP_cons, hn]
    · by_cases hp : r.place = "1st" <;> simp [List.countP_cons, hn, hp]
    · by_cases hp : r.place = "2nd" <;> simp [List.countP_cons, hn, hp]
    · simp [List.filter_cons, hn]
  · simp only [hn, ite_false]
    simp only [List.countP_append, List.filter_append, List.map_append, List.sum_append,
      CareerTotal.mk.injEq, true_and]
    have hn' : (r.name == n) = false := by simp [hn]
    refine ⟨?_, ?_, ?_, ?_⟩
    · simp [List.countP_cons, hn']
    · simp [List.countP_cons, hn']
    · simp [List.countP_cons, hn']
    · simp [List.filter_cons, hn']

theorem totalFor_of_absent (rs : List ResultRow) (n : String)
    (h : ∀ r ∈ rs, r.name ≠ n) :
    totalFor rs n = ⟨n, 0, 0, 0, 0⟩ := by
  unfold totalFor
  have hc : ∀ p : ResultRow → Bool, (∀ r ∈ rs, p r = false → True) → True := fun _ _ => trivial
  have h1 : rs.countP (fun r => r.name == n) = 0 := by
    rw [List.countP_eq_zero]
    intro r hr
    simp [h r hr]
  have h2 : rs.countP (fun r => r.name == n && r.place == "1st") = 0 := by
    rw [List.countP_eq_zero]
    intro r hr
    simp [h r hr]
  have h3 : rs.countP (fun r => r.name == n && r.place == "2nd") = 0 := by
    rw [List.countP_eq_zero]
    intro r hr
    simp [h r hr]
  have h4 : rs.filter (fun r => r.name == n) = [] := by
    rw [List.filter_eq_nil_iff]
    intro r hr
    simp [h r hr]
  rw [h1, h2, h3, h4]
  rfl

/-- The fold in `career_standings` produces exactly the totals of the
claim-side description, in order of first appearance. -/
theorem foldl_accRow_eq (rs : List ResultRow) :
    rs.foldl accRow [] = (namesInOrder rs).map (totalFor rs) := by
  induction rs using List.reverseRecOn with
  | nil => rfl
  | append_singleton rest r ih =>
    rw [List.foldl_append, List.foldl_cons, List.foldl_nil, ih, namesInOrder_concat]
    by_cases hmem : r.name ∈ namesInOrder rest
    · have hany : ((namesInOrder rest).map (totalFor rest)).any
          (fun t => t.name == r.name) = true := by
        rw [List.any_eq_true]
        exact ⟨totalFor rest r.name, List.mem_map_of_mem _ hmem, by simp [totalFor]⟩
      unfold accRow
      rw [hany]
      simp only [ite_true, addName, hmem, List.map_map]
      apply List.map_congr_left
      intro n hn
      simp only [Function.comp_apply, totalFor_concat, totalFor_name]
      by_cases he : r.name = n
      · simp [he]
      · have he' : (n == r.name) = false := by
          simp only [beq_eq_false_iff_ne, ne_eq]
          exact fun hc => he hc.symm
        simp [he, he']
    · have hany : ((namesInOrder rest).map (totalFor rest)).any
          (fun t => t.name == r.name) = false := by
        rw [Bool.eq_false_iff]
        intro hc
        rw [List.any_eq_true] at hc
        rcases hc with ⟨t, ht, he⟩
        rcases List.mem_map.mp ht with ⟨n, hn, rfl⟩
        have : n = r.name := by simpa [totalFor] using he
        exact hmem (this ▸ hn)
      unfold accRow
      rw [hany]
      simp only [Bool.false_eq_true, ite_false, addName, hmem, List.map_append, List.map_map]
      congr 1
      · apply List.map_congr_left
        intro n hn
        simp only [Function.comp_apply, totalFor_concat]
        have he : ¬ r.name = n := fun hc => hmem (hc ▸ hn)
        simp [he]
      · simp only [List.map_cons, List.map_nil]
        rw [totalFor_concat]
        simp only [ite_true]
        rw [totalFor_of_absent rest r.name
          (fun r' hr' hc => hmem ((mem_namesInOrder rest r.name).mpr ⟨r', hr', hc⟩))]

theorem careerLt_trans (a b c : CareerTotal) :
    careerLt a b = true → careerLt b c = true → careerLt a c = true := by
  simp only [careerLt, decide_eq_true_eq]
  omega

theorem careerLt_asymm (a b : CareerTotal) : careerLt a b = true → careerLt b a = false := by
  simp only [careerLt, decide_eq_true_eq, decide_eq_false_iff_not]
  omega

theorem careerLt_key (a b c : CareerTotal) (h : a.winnings = b.winnings) :
    careerLt a c = careerLt b c := by
  simp only [careerLt, h]

/-- **C7.** Career aggregation: the fold over all result rows produces,
for exactly the names appearing in at least one row and in order of first
appearance, totals counting that name's rows, 1st places, 2nd places, and
summed prizes; `career_standings` is a permutation of those totals,
sorted by descending winnings, and rows with equal winnings keep the
aggregation order (stability, expressed by filter preservation). -/
theorem claim_C7_career (history : List HistoryRecord) :
    (rowsOf history).foldl accRow [] =
      (namesInOrder (rowsOf history)).map (totalFor (rowsOf history)) ∧
    List.Perm (career_standings history) ((rowsOf history).foldl accRow []) ∧
    List.Pairwise (fun a b => b.winnings ≤ a.winnings) (career_standings history) ∧
    (∀ w : Int, (career_standings history).filter (fun t => t.winnings = w) =
      ((rowsOf history).foldl accRow []).filter (fun t => t.winnings = w)) ∧
    (∀ n : String, (∃ t ∈ career_standings history, t.name = n) ↔
      (∃ r ∈ rowsOf history, r.name = n)) := by
  refine ⟨foldl_accRow_eq (rowsOf history), ?_, ?_, ?_, ?_⟩
  · exact stableSort_perm careerLt _
  · have := pairwise_stableSort careerLt careerLt_trans careerLt_asymm
      ((rowsOf history).foldl accRow [])
    refine this.imp ?_
    intro a b hab
    simp only [careerLt, decide_eq_false_iff_not, not_lt] at hab
    exact hab
  · intro w
    exact filter_stableSort careerLt (fun t => t.winnings) careerLt_key
      careerLt_trans careerLt_asymm w _
  · intro n
    constructor
    · rintro ⟨t, ht, rfl⟩
      simp only [career_standings] at ht
      rw [mem_stableSort careerLt, foldl_accRow_eq] at ht
      rcases List.mem_map.mp ht with ⟨m, hm, rfl⟩
      rw [totalFor_name]
      exact (mem_namesInOrder _ m).mp hm
    · intro hr
      refine ⟨totalFor (rowsOf history) n, ?_, totalFor_name _ n⟩
      simp only [career_standings]
      rw [mem_stableSort careerLt, foldl_accRow_eq]
      exact List.mem_map_of_mem _ ((mem_namesInOrder _ n).mpr hr)

/-! ### Characterizing the name-matcher lookup table -/

/-- `d.get(key)` on the association-list dict. -/
def lookupGet (d : Lookup) (key : String) : Option (Int × Bool) :=
  (d.find? (fun q => q.1 == key)).map (fun q => q.2)

/-- The substring stage of `get_position`/`is_cut`: first dict key (in
insertion order) related to the normalized pick by substring containment,
else the sentinel. -/
def substringStage (d : Lookup) (nm : String) : Int × Bool :=
  match d.find? (fun q => containsStr q.1 nm || containsStr nm q.1) with
  | some q => q.2
  | none => (999, false)

theorem lookupResolve_eq (d : Lookup) (pick : String) :
    lookupResolve d pick =
      match lookupGet d (normPick pick) with
      | some val => val
      | none => substringStage d (normPick pick) := by
  unfold lookupResolve lookupGet substringStage
  cases hfind : d.find? (fun q => q.1 == normPick pick) <;> simp [hfind]

theorem find?_replace (d : Lookup) (k : String) (v : Int × Bool) (key : String) :
    (d.map (fun q => if q.1 == k then (k, v) else q)).find? (fun q => q.1 == key) =
      if key = k then (d.find? (fun q => q.1 == k)).map (fun _ => (k, v))
      else d.find? (fun q => q.1 == key) := by
  induction d with
  | nil => by_cases h : key = k <;> simp [h]
  | cons q rest ih =>
    simp only [List.map_cons]
    by_cases hq : (q.1 == k) = true
    · have hq' : q.1 = k := by simpa using hq
      by_cases hkey : key = k
      · subst hkey
        simp [List.find?_cons, hq]
      · have h1 : (((k, v) : String × Int × Bool).1 == key) = false := by
          simp only [beq_eq_false_iff_ne, ne_eq]
          exact fun h => hkey h.symm
        have h2 : (q.1 == key) = false := by
          rw [hq']
          simp only [beq_eq_false_iff_ne, ne_eq]
          exact fun h => hkey h.symm
        simp only [hq, ite_true, List.find?_cons, h1, h2]
        simpa [hkey] using ih
    · have hq' : (q.1 == k) = false := by simpa using hq
      by_cases hkey : key = k
      · subst hkey
        simp only [hq', Bool.false_eq_true, ite_false, List.find?_cons, hq']
        simpa using ih
      · simp only [hq', Bool.false_eq_true, ite_false, List.find?_cons]
        by_cases hqkey : (q.1 == key) = true
        · simp [hqkey, hkey]
        · have : (q.1 == key) = false := by simpa using hqkey
          simp only [this]
          simpa [hkey] using ih

theorem lookupGet_dictSet (d : Lookup) (k : String) (v : Int × Bool) (key : String) :
    lookupGet (dictSet d k v) key = if key = k then some v else lookupGet d key := by
  unfold dictSet lookupGet
  by_cases hany : d.any (fun q => q.1 == k)
  · simp only [hany, ite_true, find?_replace]
    by_cases hkey : key = k
    · subst hkey
      have hsome : (d.find? (fun q => q.1 == key)).isSome := by
        rw [List.find?_isSome]
        exact List.any_eq_true.mp hany
      rcases Option.isSome_iff_exists.mp hsome with ⟨q', hq'⟩
      simp [hq']
    · simp [hkey]
  · have hnone : d.find? (fun q => q.1 == k) = none := by
      rw [List.find?_eq_none]
      intro x hx hc
      exact hany (List.any_eq_true.mpr ⟨x, hx, hc⟩)
    simp only [hany, Bool.false_eq_true, ite_false, List.find?_append, hnone]
    by_cases hkey : key = k
    · subst hkey
      simp [hnone, List.find?_cons]
    · have h1 : (((k, v) : String × Int × Bool).1 == key) = false := by
        simp only [beq_eq_false_iff_ne, ne_eq]
        exact fun h => hkey h.symm
      cases hfind : d.find? (fun q => q.1 == key) <;>
        simp [hfind, List.find?_cons, h1, hkey]

theorem lookupGet_dictSetD (d : Lookup) (k : String) (v : Int × Bool) (key : String) :
    lookupGet (dictSetD d k v) key =
      if key = k then some ((lookupGet d k).getD v) else lookupGet d key := by
  unfold dictSetD lookupGet
  by_cases hany : d.any (fun q => q.1 == k)
  · simp only [hany, ite_true]
    by_cases hkey : key = k
    · subst hkey
      have hsome : (d.find? (fun q => q.1 == key)).isSome := by
        rw [List.find?_isSome]
        exact List.any_eq_true.mp hany
      rcases Option.isSome_iff_exists.mp hsome with ⟨q', hq'⟩
      simp [hq']
    · simp [hkey]
  · have hnone : d.find? (fun q => q.1 == k) = none := by
      rw [List.find?_eq_none]
      intro x hx hc
      exact hany (List.any_eq_true.mpr ⟨x, hx, hc⟩)
    simp only [hany, Bool.false_eq_true, ite_false, List.find?_append, hnone]
    by_cases hkey : key = k
    · subst hkey
      simp [hnone, List.find?_cons]
    · have h1 : (((k, v) : String × Int × Bool).1 == key) = false := by
        simp only [beq_eq_false_iff_ne, ne_eq]
        exact fun h => hkey h.symm
      cases hfind : d.find? (fun q => q.1 == key) <;>
        simp [hfind, List.find?_cons, h1, hkey]

/-- The full-name key an entry contributes to the lookup table. -/
def fullKeyOf (p : Player) : String := lowerStr p.name

/-- The surname key an entry contributes (only for multi-word names):
the last whitespace-delimited token of the lowercased name. -/
def surnameKeyOf (p : Player) : Option String :=
  let parts := tokensOf (lowerStr p.name)
  if 2 ≤ parts.length then parts.getLast? else none

/-- What the finished lookup table stores under `key`: the data of the
*last* entry whose full name is `key` (full-name writes overwrite), else
the data of the *first* entry whose surname token is `key` (surname
writes keep the existing binding), else nothing. -/
def valueAt (players : List Player) (key : String) : Option (Int × Bool) :=
  match (players.filter (fun p => fullKeyOf p == key)).getLast? with
  | some p => some (p.position, p.cut)
  | none =>
    (players.find? (fun p => surnameKeyOf p == some key)).map (fun p => (p.position, p.cut))

theorem lookupStep_eq (d : Lookup) (p : Player) :
    lookupStep d p =
      match surnameKeyOf p with
      | some s => dictSetD (dictSet d (fullKeyOf p) (p.position, p.cut)) s (p.position, p.cut)
      | none => dictSet d (fullKeyOf p) (p.position, p.cut) := by
  unfold lookupStep surnameKeyOf fullKeyOf
  by_cases h : 2 ≤ (tokensOf (lowerStr p.name)).length
  · simp [h]
  · simp [h]


theorem lookupGet_buildLookup (players : List Player) (key : String) :
    lookupGet (buildLookup players) key = valueAt players key := by
  induction players using List.reverseRecOn generalizing key with
  | nil => rfl
  | append_singleton ps p ih =>
    have hstep : buildLookup (ps ++ [p]) = lookupStep (buildLookup ps) p := by
      unfold buildLookup
      rw [List.foldl_append, List.foldl_cons, List.foldl_nil]
    rw [hstep, lookupStep_eq]
    cases hs : surnameKeyOf p with
    | none =>
      simp only
      rw [lookupGet_dictSet, ih key]
      unfold valueAt
      rw [List.filter_append, List.find?_append]
      have hfp : [p].find? (fun q => surnameKeyOf q == some key) = none := by
        simp [List.find?_cons, hs]
      rw [hfp]
      by_cases hF : key = fullKeyOf p
      · have hfil : [p].filter (fun q => fullKeyOf q == key) = [p] := by
          simp [hF.symm]
        rw [hfil, List.getLast?_concat, if_pos hF]
      · have hfil : [p].filter (fun q => fullKeyOf q == key) = [] := by
          simp
          exact fun h => hF h.symm
        rw [hfil, List.append_nil, if_neg hF]
        cases hgl : (ps.filter (fun q => fullKeyOf q == key)).getLast? with
        | none => simp [hgl]
        | some q => simp [hgl]
    | some s =>
      simp only
      rw [lookupGet_dictSetD]
      unfold valueAt
      rw [List.filter_append, List.find?_append]
      have hfp : [p].find? (fun q => surnameKeyOf q == some key) =
          (if s = key then some p else none) := by
        by_cases hsk : s = key
        · simp [List.find?_cons, hs, hsk]
        · simp [List.find?_cons, hs, hsk]
      rw [hfp]
      by_cases hkeyS : key = s
      · subst hkeyS
        rw [if_pos rfl, if_pos rfl, lookupGet_dictSet]
        by_cases hsF : key = fullKeyOf p
        · have hfil : [p].filter (fun q => fullKeyOf q == key) = [p] := by
            simp [hsF.symm]
          rw [hfil, List.getLast?_concat, if_pos hsF]
          simp
        · have hfil : [p].filter (fun q => fullKeyOf q == key) = [] := by
            simp
            exact fun h => hsF h.symm
          rw [hfil, List.append_nil, if_neg hsF, ih key]
          unfold valueAt
          cases hgl : (ps.filter (fun q => fullKeyOf q == key)).getLast? with
          | some q => simp [hgl]
          | none =>
            simp only [hgl]
            cases hfind : ps.find? (fun q => surnameKeyOf q == some key) with
            | some q => simp [hfind]
            | none => simp [hfind]
      · rw [if_neg hkeyS, lookupGet_dictSet, ih key]
        have hps : (if s = key then some p else none) = none :=
          if_neg (fun h => hkeyS h.symm)
        rw [hps]
        by_cases hF : key = fullKeyOf p
        · have hfil : [p].filter (fun q => fullKeyOf q == key) = [p] := by
            simp [hF.symm]
          rw [hfil, List.getLast?_concat, if_pos hF]
        · have hfil : [p].filter (fun q => fullKeyOf q == key) = [] := by
            simp
            exact fun h => hF h.symm
          rw [hfil, List.append_nil, if_neg hF]
          unfold valueAt
          cases hgl : (ps.filter (fun q => fullKeyOf q == key)).getLast? with
          | none => simp [hgl]
          | some q => simp [hgl]

/-- The amended claim-side name matcher: exact full-name match (the last
such leaderboard entry, since later full-name writes overwrite), then
exact surname match (first entry in leaderboard order), then — the
amendment — substring containment checked against the lookup *keys*
(normalized full names and first-occurrence surname tokens, in insertion
order), else the sentinel `(999, false)`. -/
def resolveSpecAmended (players : List Player) (pick : String) : Int × Bool :=
  let np := normPick pick
  match (players.filter (fun p => fullKeyOf p == np)).getLast? with
  | some p => (p.position, p.cut)
  | none =>
  match players.find? (fun p => surnameKeyOf p == some np) with
  | some p => (p.position, p.cut)
  | none => substringStage (buildLookup players) np

/-- **C4 (counterexample).** The pick "xwoods" against the single entry
"Tiger Woods": it matches no full name exactly, no surname exactly, and
is not substring-related to the normalized full name "tiger woods" — so
the claim's staged algorithm (`resolveSpec`) yields `(999, false)`.  The
code, however, also substring-matches against the surname *key* "woods",
which is contained in "xwoods", and returns that entry's data. -/
theorem claim_C4_counterexample :
    get_position [⟨"Tiger Woods", 5, false⟩] "xwoods" = 5 ∧
    is_cut [⟨"Tiger Woods", 5, false⟩] "xwoods" = false ∧
    resolveSpec [⟨"Tiger Woods", 5, false⟩] "xwoods" = (999, false) ∧
    (get_position [⟨"Tiger Woods", 5, false⟩] "xwoods",
      is_cut [⟨"Tiger Woods", 5, false⟩] "xwoods") ≠
      resolveSpec [⟨"Tiger Woods", 5, false⟩] "xwoods" := by
  refine ⟨by decide, by decide, by decide, by decide⟩

/-- **C4 (amended).** The resolver equals the staged algorithm with the
substring stage running over the lookup keys (full names *and* surname
tokens); in particular every pick resolves to `(999, false)` against an
empty leaderboard. -/
theorem claim_C4_staged (players : List Player) (pick : String) :
    (get_position players pick, is_cut players pick) = resolveSpecAmended players pick ∧
    (players = [] → (get_position players pick, is_cut players pick) = (999, false)) := by
  constructor
  · unfold get_position is_cut resolveSpecAmended
    rw [lookupResolve_eq, lookupGet_buildLookup]
    unfold valueAt
    cases hgl : (players.filter (fun p => fullKeyOf p == normPick pick)).getLast? with
    | some q => simp [hgl]
    | none =>
      simp only [hgl]
      cases hfind : players.find? (fun p => surnameKeyOf p == some (normPick pick)) with
      | some q => simp [hfind]
      | none => simp [hfind]
  · intro h
    subst h
    rfl

theorem claim_C4_witness :
    (([] : List Player) = []) ∧
    (get_position [] "Nobody Here", is_cut [] "Nobody Here") = (999, false) :=
  ⟨rfl, (claim_C4_staged [] "Nobody Here").2 rfl⟩
